import Mathlib

/-!
# Verification of the rank-diffusion aggregation-and-ranking pipeline

Shallow embedding of `build_fb_top2000_daily_ranked.py` and
`build_fb_top20000_weekly_ranked.py`: two batch jobs that read daily
Parquet dumps of per-post engagement records, aggregate a ten-field
interaction total per page within a time window (one calendar day,
resp. one Monday-aligned ISO week), rank pages by that total with
`DENSE_RANK() OVER (ORDER BY metric_value DESC)`, keep the top N rows
of each window (`ORDER BY rank LIMIT 2000` daily, `ROW_NUMBER ... WHERE
rn <= 100000` weekly), and concatenate all windows into one panel.

Machine integers are modelled as `Int` (interaction counts, BIGINT sums)
and `Nat` (ranks, calendar ordinals); SQL NULL is `Option`; a run that
raises an uncaught Python exception or a DuckDB error is `Except.error`.
-/

namespace RankDiffusion

/-- The ten interaction-count columns named in `INTERACTIONS_EXPR`
(`statistics.actual.*Count`). -/
inductive Field where
  | likeCount | shareCount | commentCount | loveCount | wowCount
  | hahaCount | sadCount | angryCount | thankfulCount | careCount
deriving DecidableEq

/-- The ten fields, in the order they are summed in `INTERACTIONS_EXPR`. -/
def tenFields : List Field :=
  [.likeCount, .shareCount, .commentCount, .loveCount, .wowCount,
   .hahaCount, .sadCount, .angryCount, .thankfulCount, .careCount]

/-- The nine fields referenced as plain (unprotected) column names in
`INTERACTIONS_EXPR`; every field except `thankfulCount`, which is the
only one wrapped in `try()`. -/
def plainFields : List Field :=
  [.likeCount, .shareCount, .commentCount, .loveCount, .wowCount,
   .hahaCount, .sadCount, .angryCount, .careCount]

/-- One post record inside a Parquet file: the `account.name` page
identifier, the value of the `date` column (None = SQL NULL, as a
proleptic-Gregorian ordinal), and the stored value of each interaction
column (None = SQL NULL; only meaningful for columns the file's schema
actually has). -/
structure PRow where
  page : String
  dateVal : Option Nat
  vals : Field → Option Int

/-- One input Parquet file: its filename, which interaction columns its
schema has, whether it has a `date` column at all, and its records. -/
structure PFile where
  name : String
  schema : Field → Bool
  hasDateCol : Bool
  rows : List PRow

/-- The ways a run aborts: the `FileNotFoundError` guard on an empty
input directory; a DuckDB binder error for a column absent from the
scan's schema; the Python error raised when `week_start_for` is applied
to the `None` returned by a NULL `MIN(date)`; and the `ValueError` from
`date.fromisoformat` on an out-of-range matched date string. -/
inductive Err where
  | noInputFound
  | binderError
  | noneDate
  | badDate
deriving DecidableEq

/-- Value of interaction column `c` for row `r` of file `f` under
`union_by_name=true`: a column the file's schema lacks is null-padded. -/
def colVal (f : PFile) (r : PRow) (c : Field) : Option Int :=
  if f.schema c then r.vals c else none

/-- The per-record value of `INTERACTIONS_EXPR`:
`COALESCE(col, 0)` summed over the ten interaction columns. -/
def rowScore (f : PFile) (r : PRow) : Int :=
  (tenFields.map (fun c => (colVal f r c).getD 0)).sum

/-- Whether column `c` exists in the unioned schema of a
`read_parquet([...], union_by_name=true)` scan over files `fs`. -/
def unionHas (fs : List PFile) (c : Field) : Bool :=
  fs.any (fun f => f.schema c)

/-- The `(page, interactions)` stream produced by the `p` CTE: every row
of every scanned file with its `INTERACTIONS_EXPR` value. -/
def pairs : List PFile → List (String × Int)
  | [] => []
  | f :: fs => f.rows.map (fun r => (r.page, rowScore f r)) ++ pairs fs

/-- Keys of a list in order of first appearance (the grouping keys a
`GROUP BY` produces: each distinct key exactly once). -/
def firstKeys {α : Type} [DecidableEq α] : List α → List α
  | [] => []
  | x :: xs => x :: (firstKeys xs).filter (fun y => decide (y ≠ x))

/-- `GROUP BY page` / `GROUP BY 1` with `SUM(interactions)`: one output
pair per distinct key, carrying the sum of that key's values. -/
def groupSums (l : List (String × Int)) : List (String × Int) :=
  (firstKeys (l.map Prod.fst)).map
    (fun k => (k, ((l.filter (fun x => decide (x.1 = k))).map Prod.snd).sum))

/-- The `page_tot` / `weekly` CTE over a scan of `fs`: per-page sums of
`INTERACTIONS_EXPR`. The nine plainly referenced columns must exist in
the unioned schema of the scan, else DuckDB raises a binder error; only
`thankfulCount`, wrapped in `try()`, tolerates absence from every file. -/
def aggregate (fs : List PFile) : Except Err (List (String × Int)) :=
  if plainFields.all (fun c => unionHas fs c) then
    .ok (groupSums (pairs fs))
  else
    .error .binderError

/-- Claim-side formula: the exact sum, over every record with page
identifier `p` in the given files, of the ten interaction fields, a
field that is null in a record or absent from its file's schema
contributing 0. -/
def exactTotal (p : String) : List PFile → Int
  | [] => 0
  | f :: fs =>
      ((f.rows.filter (fun r => decide (r.page = p))).map
        (fun r => (tenFields.map
          (fun c => (if f.schema c then r.vals c else none).getD 0)).sum)).sum
      + exactTotal p fs

/-- Page identifier `p` occurs in some record of the given files. -/
def pageAppears (p : String) (fs : List PFile) : Prop :=
  ∃ f ∈ fs, ∃ r ∈ f.rows, r.page = p

/-! ## Ranking -/

/-- Insert into a metric-descending list, keeping an element that
arrives earlier before later elements with the same metric. -/
def insertDesc (x : String × Int) : List (String × Int) → List (String × Int)
  | [] => [x]
  | y :: ys => if y.2 ≤ x.2 then x :: y :: ys else y :: insertDesc x ys

/-- `ORDER BY metric_value DESC`: a deterministic (stable) realisation
of the engine's sort, ties left in grouping order. -/
def sortDesc : List (String × Int) → List (String × Int)
  | [] => []
  | x :: xs => insertDesc x (sortDesc xs)

/-- Scanning step of `DENSE_RANK`: `prev` is the previous row's metric
and `r` its rank; the rank is reused while the metric repeats and
incremented by one when it changes. -/
def adGo (prev : Int) (r : Nat) : List (String × Int) → List (String × Int × Nat)
  | [] => []
  | x :: xs =>
      if x.2 = prev then (x.1, x.2, r) :: adGo prev r xs
      else (x.1, x.2, r + 1) :: adGo x.2 (r + 1) xs

/-- `DENSE_RANK() OVER (ORDER BY metric_value DESC)` evaluated over an
already metric-descending list: the first row gets rank 1, equal
metrics share a rank, each strictly smaller metric increments it by 1. -/
def assignDense : List (String × Int) → List (String × Int × Nat)
  | [] => []
  | x :: xs => (x.1, x.2, 1) :: adGo x.2 1 xs

/-- Number of distinct metric values in `vs` strictly greater than `v`. -/
def dcg (vs : List Int) (v : Int) : Nat :=
  (vs.toFinset.filter (fun u => v < u)).card

/-- The daily `ranked` CTE: dense-ranked rows in `ORDER BY rank` order
(which coincides with metric-descending order), cut with `LIMIT n`. -/
def dailySelect (totals : List (String × Int)) (n : Nat) : List (String × Int × Nat) :=
  (assignDense (sortDesc totals)).take n

/-- The weekly `ranked` CTE: dense-ranked rows additionally numbered by
`ROW_NUMBER() OVER (ORDER BY metric_value DESC)` (position + 1), kept
when `rn <= n`, `rn` projected away by the final SELECT. -/
def weeklySelect (totals : List (String × Int)) (n : Nat) : List (String × Int × Nat) :=
  ((assignDense (sortDesc totals)).enum.filter (fun q => q.1 + 1 ≤ n)).map Prod.snd

/-! ## Calendar dates (Python `datetime.date`, proleptic Gregorian ordinals) -/

/-- Gregorian leap-year test. -/
def isLeap (y : Nat) : Bool :=
  y % 4 == 0 && (y % 100 != 0 || y % 400 == 0)

/-- Length of month `m` of year `y`. -/
def daysInMonth (y m : Nat) : Nat :=
  if m = 2 then (if isLeap y then 29 else 28)
  else if m = 4 ∨ m = 6 ∨ m = 9 ∨ m = 11 then 30
  else 31

/-- Days in year `y` before the first of month `m`. -/
def daysBeforeMonth (y m : Nat) : Nat :=
  ((List.range (m - 1)).map (fun i => daysInMonth y (i + 1))).sum

/-- `datetime.date(y, m, d).toordinal()`: day 1 is 0001-01-01. -/
def toordinal (y m d : Nat) : Nat :=
  365 * (y - 1) + (y - 1) / 4 - (y - 1) / 100 + (y - 1) / 400
    + daysBeforeMonth y m + d

/-- `date.weekday()`: Monday = 0; ordinal 1 (0001-01-01) is a Monday. -/
def weekday (d : Nat) : Nat := (d - 1) % 7

/-- `week_start_for`: `d - timedelta(days=d.weekday())`, the Monday
starting the ISO week that contains `d`. -/
def weekStart (d : Nat) : Nat := d - weekday d

/-! ## Date resolution per input file -/

/-- Ten leading characters matching the regex `\d{4}-\d{2}-\d{2}`. -/
def matchAt : List Char → Option (List Char)
  | a :: b :: c :: d :: e :: f :: g :: h :: i :: j :: _ =>
      if a.isDigit && b.isDigit && c.isDigit && d.isDigit && e == '-' &&
         f.isDigit && g.isDigit && h == '-' && i.isDigit && j.isDigit then
        some [a, b, c, d, e, f, g, h, i, j]
      else
        none
  | _ => none

/-- Leftmost occurrence of the date pattern in a character list. -/
def searchD : List Char → Option String
  | [] => none
  | c :: cs =>
      match matchAt (c :: cs) with
      | some m => some (String.mk m)
      | none => searchD cs

/-- `date_regex.search(pfile.name)`: leftmost `\d{4}-\d{2}-\d{2}` match. -/
def findDatePattern (s : String) : Option String :=
  searchD s.toList

/-- Numeric value of a decimal digit character. -/
def digitVal (c : Char) : Nat := c.toNat - 48

/-- `datetime.date.fromisoformat` on a ten-character `YYYY-MM-DD`
string (the only shape the regex match can produce): validated year,
month and day, returned as an ordinal; out-of-range parts raise. -/
def parseIsoDate (s : String) : Except Err Nat :=
  match s.toList with
  | [y1, y2, y3, y4, _, m1, m2, _, d1, d2] =>
      let y := 1000 * digitVal y1 + 100 * digitVal y2 + 10 * digitVal y3 + digitVal y4
      let m := 10 * digitVal m1 + digitVal m2
      let d := 10 * digitVal d1 + digitVal d2
      if 1 ≤ y ∧ 1 ≤ m ∧ m ≤ 12 ∧ 1 ≤ d ∧ d ≤ daysInMonth y m then
        .ok (toordinal y m d)
      else
        .error .badDate
  | _ => .error .badDate

/-- Minimum of a list of naturals, none when empty. -/
def listMin : List Nat → Option Nat
  | [] => none
  | x :: xs =>
      match listMin xs with
      | none => some x
      | some m => some (min x m)

/-- `SELECT MIN(CAST(date AS DATE)) FROM parquet_scan(file)`: a binder
error when the file has no `date` column, otherwise the minimum of the
non-null date values (SQL NULL when there are none). -/
def minDateOf (f : PFile) : Except Err (Option Nat) :=
  if f.hasDateCol then .ok (listMin (f.rows.filterMap PRow.dateVal))
  else .error .binderError

/-- Daily-script date resolution: the filename pattern if present, else
the in-file minimum date; the fallback can yield `none` (SQL NULL),
which the daily script passes on as a NULL window date. -/
def resolveDateDaily (f : PFile) : Except Err (Option Nat) :=
  match findDatePattern f.name with
  | some s => (parseIsoDate s).map some
  | none => minDateOf f

/-- Weekly-script date resolution: as daily, but the resolved date is
fed to `week_start_for`, so a `None` fallback value raises when its
`weekday()` is taken. -/
def resolveDateWeekly (f : PFile) : Except Err Nat :=
  match findDatePattern f.name with
  | some s => parseIsoDate s
  | none =>
      match minDateOf f with
      | .error e => .error e
      | .ok none => .error .noneDate
      | .ok (some d) => .ok d

/-! ## The two jobs -/

/-- One output row of either panel: `(date, endpoint_id, metric_value,
rank)`. The daily script can insert a NULL date (see date resolution). -/
structure RankedRow where
  date : Option Nat
  endpoint_id : String
  metric_value : Int
  rank : Nat
deriving DecidableEq

/-- Tag a window's selected `(page, metric, rank)` triples with the
window's representative date. -/
def mkRows (d : Option Nat) (sel : List (String × Int × Nat)) : List RankedRow :=
  sel.map (fun x => ⟨d, x.1, x.2.1, x.2.2⟩)

/-- The daily script's per-file INSERT: scan the one file, aggregate per
page, dense-rank, keep the top 2000 positions, tag with the file's
resolved date. -/
def dailyWindow (d : Option Nat) (f : PFile) : Except Err (List RankedRow) :=
  match aggregate [f] with
  | .error e => .error e
  | .ok t => .ok (mkRows d (dailySelect t 2000))

/-- The weekly script's per-week INSERT: scan the week's files together
(`union_by_name`), aggregate per page, dense-rank, keep row numbers up
to 100000, tag with the week-start date. -/
def weeklyWindow (w : Nat) (fs : List PFile) : Except Err (List RankedRow) :=
  match aggregate fs with
  | .error e => .error e
  | .ok t => .ok (mkRows (some w) (weeklySelect t 100000))

/-- Python code-point comparison of character lists (the order
`sorted()` applies to the globbed paths, which differ only in filename). -/
def strLtB : List Char → List Char → Bool
  | [], [] => false
  | [], _ :: _ => true
  | _ :: _, [] => false
  | c :: cs, d :: ds =>
      if c.toNat < d.toNat then true
      else if d.toNat < c.toNat then false
      else strLtB cs ds

/-- Insertion step of `sorted(RAW_DIR.glob(...))` by filename. -/
def insertByName (f : PFile) : List PFile → List PFile
  | [] => [f]
  | g :: gs =>
      if strLtB g.name.toList f.name.toList then g :: insertByName f gs
      else f :: g :: gs

/-- `sorted(RAW_DIR.glob("*.parquet"))`: the input files in ascending
filename order. -/
def sortByName : List PFile → List PFile
  | [] => []
  | f :: fs => insertByName f (sortByName fs)

/-- The daily loop body, iterated over the sorted files: resolve each
file's date, run its window, append its rows; the first uncaught error
aborts the whole job. -/
def processDaily : List PFile → Except Err (List RankedRow)
  | [] => .ok []
  | f :: fs =>
      match resolveDateDaily f with
      | .error e => .error e
      | .ok d =>
          match dailyWindow d f with
          | .error e => .error e
          | .ok rows =>
              match processDaily fs with
              | .error e => .error e
              | .ok rest => .ok (rows ++ rest)

/-- `build_fb_top2000_daily_ranked.py`: guard against an empty input
directory, then process each file in sorted order; `.ok` is the panel
the final COPY writes, `.error` an aborted job with no output. -/
def dailyJob (files : List PFile) : Except Err (List RankedRow) :=
  if files.isEmpty then .error .noInputFound
  else processDaily (sortByName files)

/-- The weekly script's first loop: resolve every file's date before any
window runs; an unresolvable file aborts the job here. -/
def resolveAll : List PFile → Except Err (List (PFile × Nat))
  | [] => .ok []
  | f :: fs =>
      match resolveDateWeekly f with
      | .error e => .error e
      | .ok d =>
          match resolveAll fs with
          | .error e => .error e
          | .ok rest => .ok ((f, d) :: rest)

/-- Ascending insertion for `sorted(week_map.keys())`. -/
def insertAsc (x : Nat) : List Nat → List Nat
  | [] => [x]
  | y :: ys => if x ≤ y then x :: y :: ys else y :: insertAsc x ys

/-- `sorted()` on week keys. -/
def sortAsc : List Nat → List Nat
  | [] => []
  | x :: xs => insertAsc x (sortAsc xs)

/-- `weeks_sorted`: the distinct week-start keys of the resolved files,
in ascending order. -/
def weeksOf (rs : List (PFile × Nat)) : List Nat :=
  sortAsc (firstKeys (rs.map (fun fd => weekStart fd.2)))

/-- `week_map[ws]`: the files whose resolved date falls in week `w`, in
enumeration order (`setdefault(...).append` keeps insertion order). -/
def filesForWeek (rs : List (PFile × Nat)) (w : Nat) : List PFile :=
  (rs.filter (fun fd => decide (weekStart fd.2 = w))).map Prod.fst

/-- The weekly loop over the sorted week keys, appending each week's
ranked rows. -/
def processWeeks (rs : List (PFile × Nat)) : List Nat → Except Err (List RankedRow)
  | [] => .ok []
  | w :: ws =>
      match weeklyWindow w (filesForWeek rs w) with
      | .error e => .error e
      | .ok rows =>
          match processWeeks rs ws with
          | .error e => .error e
          | .ok rest => .ok (rows ++ rest)

/-- `build_fb_top20000_weekly_ranked.py`: guard against an empty input
directory, resolve all dates, group by Monday-aligned week, process the
weeks in ascending key order. -/
def weeklyJob (files : List PFile) : Except Err (List RankedRow) :=
  if files.isEmpty then .error .noInputFound
  else
    match resolveAll (sortByName files) with
    | .error e => .error e
    | .ok rs => processWeeks rs (weeksOf rs)

/-! ## Concrete input files used as test vectors

`F1`/`F2` realise the end-to-end scenario of the design's testable
properties: day 1 has pages A:10 and B:5, day 2 (same ISO week) has
A:3, B:5, C:1; `F1` contains an explicit NULL (`careCount` of row A)
and `F2` lacks the `thankfulCount` column entirely. -/

/-- Day-1 record for page A: ten likes, a NULL `careCount`, total 10. -/
def rowA1 : PRow :=
  ⟨"A", some (toordinal 2024 3 4),
   fun c => match c with | .likeCount => some 10 | .careCount => none | _ => some 0⟩

/-- Day-1 record for page B: five likes, total 5. -/
def rowB1 : PRow :=
  ⟨"B", some (toordinal 2024 3 4),
   fun c => match c with | .likeCount => some 5 | _ => some 0⟩

/-- Day-2 record for page A: three likes, total 3. -/
def rowA2 : PRow :=
  ⟨"A", some (toordinal 2024 3 5),
   fun c => match c with | .likeCount => some 3 | _ => some 0⟩

/-- Day-2 record for page B: five likes, total 5. -/
def rowB2 : PRow :=
  ⟨"B", some (toordinal 2024 3 5),
   fun c => match c with | .likeCount => some 5 | _ => some 0⟩

/-- Day-2 record for page C: one like, total 1. -/
def rowC2 : PRow :=
  ⟨"C", some (toordinal 2024 3 5),
   fun c => match c with | .likeCount => some 1 | _ => some 0⟩

/-- Day file for Monday 2024-03-04 with pages A (total 10, one NULL
field) and B (total 5); full schema. -/
def F1 : PFile := ⟨"2024-03-04.parquet", fun _ => true, true, [rowA1, rowB1]⟩

/-- Day file for Tuesday 2024-03-05 with pages A:3, B:5, C:1; its
schema lacks `thankfulCount`. -/
def F2 : PFile :=
  ⟨"2024-03-05.parquet",
   fun c => match c with | .thankfulCount => false | _ => true, true,
   [rowA2, rowB2, rowC2]⟩

/-- The per-page totals the weekly aggregation produces from `F1, F2`. -/
def totalsW : List (String × Int) := [("A", 13), ("B", 10), ("C", 1)]

/-- The ranked weekly panel produced from `F1, F2`: one window starting
Monday 2024-03-04 with ranks 1, 2, 3. -/
def panelW : List RankedRow :=
  [⟨some (toordinal 2024 3 4), "A", 13, 1⟩,
   ⟨some (toordinal 2024 3 4), "B", 10, 2⟩,
   ⟨some (toordinal 2024 3 4), "C", 1, 3⟩]

/-- A file whose name has no date pattern and whose `date` column is
present but yields no value (no rows): the content scan returns SQL
NULL. -/
def FND : PFile := ⟨"nodate.parquet", fun _ => true, true, []⟩

/-- A file whose name has no date pattern and which has no `date`
column at all: the content scan itself errors. -/
def FND2 : PFile := ⟨"alsonodate.parquet", fun _ => true, false, []⟩

/-- First of two files resolving to the same calendar date 2024-03-04,
both containing page A (every field 1, so score 10). -/
def G1 : PFile :=
  ⟨"2024-03-04a.parquet", fun _ => true, true, [⟨"A", none, fun _ => some 1⟩]⟩

/-- Second file resolving to 2024-03-04, also containing page A. -/
def G2 : PFile :=
  ⟨"2024-03-04b.parquet", fun _ => true, true, [⟨"A", none, fun _ => some 1⟩]⟩

/-- A file whose schema lacks the plainly referenced `likeCount`
column. -/
def FnoLike : PFile :=
  ⟨"2024-03-05.parquet",
   fun c => match c with | .likeCount => false | _ => true, true,
   [⟨"A", none, fun _ => some 1⟩]⟩

/-! ## Grouping and aggregation lemmas -/

theorem mem_firstKeys {α : Type} [DecidableEq α] {k : α} :
    ∀ {l : List α}, k ∈ firstKeys l ↔ k ∈ l
  | [] => Iff.rfl
  | x :: xs => by
      simp only [firstKeys, List.mem_cons, List.mem_filter,
        decide_eq_true_eq]
      constructor
      · rintro (rfl | ⟨h, _⟩)
        · exact Or.inl rfl
        · exact Or.inr (mem_firstKeys.mp h)
      · rintro (rfl | h)
        · exact Or.inl rfl
        · by_cases hk : k = x
          · exact Or.inl hk
          · exact Or.inr ⟨mem_firstKeys.mpr h, hk⟩

theorem firstKeys_nodup {α : Type} [DecidableEq α] :
    ∀ (l : List α), (firstKeys l).Nodup
  | [] => List.nodup_nil
  | x :: xs => by
      simp only [firstKeys]
      refine List.Nodup.cons ?_ (List.Nodup.filter _ (firstKeys_nodup xs))
      intro hx
      rcases List.mem_filter.mp hx with ⟨_, hne⟩
      exact (decide_eq_true_eq.mp hne) rfl

theorem groupSums_map_fst (l : List (String × Int)) :
    (groupSums l).map Prod.fst = firstKeys (l.map Prod.fst) := by
  simp [groupSums, List.map_map, Function.comp_def]

theorem mem_groupSums {l : List (String × Int)} {p : String} {v : Int}
    (h : (p, v) ∈ groupSums l) :
    p ∈ l.map Prod.fst ∧
      v = ((l.filter (fun x => decide (x.1 = p))).map Prod.snd).sum := by
  rcases List.mem_map.mp h with ⟨k, hk, he⟩
  rcases Prod.mk.injEq .. ▸ he with ⟨rfl, rfl⟩
  exact ⟨mem_firstKeys.mp hk, rfl⟩

theorem groupSums_mem_of_mem {l : List (String × Int)} {p : String}
    (h : p ∈ l.map Prod.fst) :
    (p, ((l.filter (fun x => decide (x.1 = p))).map Prod.snd).sum) ∈ groupSums l :=
  List.mem_map.mpr ⟨p, mem_firstKeys.mpr h, rfl⟩

theorem mem_pairs_fst {p : String} :
    ∀ {fs : List PFile}, p ∈ (pairs fs).map Prod.fst ↔ pageAppears p fs
  | [] => by simp [pairs, pageAppears]
  | f :: fs => by
      simp only [pairs, List.map_append, List.mem_append, List.map_map,
        pageAppears, List.mem_cons]
      constructor
      · rintro (h | h)
        · rcases List.mem_map.mp h with ⟨r, hr, he⟩
          exact ⟨f, Or.inl rfl, r, hr, he⟩
        · rcases mem_pairs_fst.mp h with ⟨g, hg, r, hr, he⟩
          exact ⟨g, Or.inr hg, r, hr, he⟩
      · rintro ⟨g, (rfl | hg), r, hr, he⟩
        · exact Or.inl (List.mem_map.mpr ⟨r, hr, he⟩)
        · exact Or.inr (mem_pairs_fst.mpr ⟨g, hg, r, hr, he⟩)

theorem pairs_filter_sum (p : String) :
    ∀ (fs : List PFile),
      (((pairs fs).filter (fun x => decide (x.1 = p))).map Prod.snd).sum
        = exactTotal p fs
  | [] => rfl
  | f :: fs => by
      simp only [pairs, List.filter_append, List.map_append, List.sum_append,
        exactTotal, pairs_filter_sum p fs]
      congr 1
      rw [List.filter_map, List.map_map]
      simp only [Function.comp_def, rowScore, colVal]

theorem aggregate_eq_ok {fs : List PFile} {totals : List (String × Int)}
    (h : aggregate fs = .ok totals) : totals = groupSums (pairs fs) := by
  unfold aggregate at h
  split at h
  · exact (Except.ok.injEq .. ▸ h).symm
  · exact absurd h (by simp)

/-! ## Sorting lemmas -/

theorem insertDesc_perm (x : String × Int) :
    ∀ (l : List (String × Int)), (insertDesc x l).Perm (x :: l)
  | [] => List.Perm.refl _
  | y :: ys => by
      unfold insertDesc
      split
      · exact List.Perm.refl _
      · exact ((insertDesc_perm x ys).cons y).trans (List.Perm.swap x y ys)

theorem sortDesc_perm : ∀ (l : List (String × Int)), (sortDesc l).Perm l
  | [] => List.Perm.refl _
  | x :: xs => (insertDesc_perm x (sortDesc xs)).trans ((sortDesc_perm xs).cons x)

theorem insertDesc_pairwise {x : String × Int} {l : List (String × Int)}
    (h : l.Pairwise (fun a b => b.2 ≤ a.2)) :
    (insertDesc x l).Pairwise (fun a b => b.2 ≤ a.2) := by
  induction l with
  | nil => simp [insertDesc]
  | cons y ys ih =>
      rcases List.pairwise_cons.mp h with ⟨hy, hys⟩
      unfold insertDesc
      split
      · rename_i hle
        refine List.pairwise_cons.mpr ⟨?_, h⟩
        intro z hz
        rcases List.mem_cons.mp hz with rfl | hz
        · exact hle
        · exact le_trans (hy z hz) hle
      · rename_i hlt
        refine List.pairwise_cons.mpr ⟨?_, ih hys⟩
        intro z hz
        rcases List.mem_cons.mp ((insertDesc_perm x ys).mem_iff.mp hz) with rfl | hz
        · exact le_of_not_le hlt
        · exact hy z hz

theorem sortDesc_pairwise :
    ∀ (l : List (String × Int)), (sortDesc l).Pairwise (fun a b => b.2 ≤ a.2)
  | [] => List.Pairwise.nil
  | x :: xs => insertDesc_pairwise (sortDesc_pairwise xs)

/-! ## Dense-rank lemmas -/

theorem adGo_proj (prev : Int) (r : Nat) :
    ∀ (l : List (String × Int)),
      (adGo prev r l).map (fun t => (t.1, t.2.1)) = l
  | [] => rfl
  | x :: xs => by
      unfold adGo
      split
      · simpa using adGo_proj prev r xs
      · simpa using adGo_proj x.2 (r + 1) xs

theorem assignDense_proj :
    ∀ (l : List (String × Int)),
      (assignDense l).map (fun t => (t.1, t.2.1)) = l
  | [] => rfl
  | x :: xs => by
      unfold assignDense
      simpa using adGo_proj x.2 1 xs

theorem dcg_cons_self_le {v : Int} {vs : List Int}
    (h : ∀ u ∈ v :: vs, u ≤ v) : dcg (v :: vs) v = 0 := by
  unfold dcg
  rw [Finset.card_eq_zero, Finset.filter_eq_empty_iff]
  intro u hu
  exact not_lt_of_le (h u (List.mem_toFinset.mp hu))

theorem dcg_cons_gt {p v : Int} {vs : List Int}
    (hlt : v < p) (hle : ∀ u ∈ vs, u ≤ v) : dcg (p :: vs) v = 1 := by
  unfold dcg
  rw [List.toFinset_cons, Finset.filter_insert, if_pos hlt]
  rw [Finset.card_insert_of_not_mem, Finset.card_eq_zero.mpr, Nat.zero_add]
  · rw [Finset.filter_eq_empty_iff]
    intro u hu
    exact not_lt_of_le (hle u (List.mem_toFinset.mp hu))
  · intro hp
    rcases Finset.mem_filter.mp hp with ⟨hp, _⟩
    exact absurd hlt (not_lt_of_le (hle p (List.mem_toFinset.mp hp)))

theorem dcg_cons_of_lt {p w v : Int} {vs : List Int}
    (hwp : w < p) (hvw : v ≤ w) (hvs : ∀ u ∈ vs, u ≤ w) :
    dcg (p :: w :: vs) v = dcg (w :: vs) v + 1 := by
  unfold dcg
  rw [List.toFinset_cons (a := p), Finset.filter_insert,
    if_pos (lt_of_le_of_lt hvw hwp), Finset.card_insert_of_not_mem]
  intro hp
  rcases Finset.mem_filter.mp hp with ⟨hp, _⟩
  rcases List.mem_cons.mp (List.mem_toFinset.mp hp) with h | h
  · rw [h] at hwp
    exact absurd hwp (lt_irrefl w)
  · exact absurd hwp (not_lt_of_le (hvs p h))

theorem adGo_spec :
    ∀ (rest : List (String × Int)) (prev : Int) (r : Nat),
      rest.Pairwise (fun a b => b.2 ≤ a.2) →
      (∀ x ∈ rest, x.2 ≤ prev) →
      adGo prev r rest
        = rest.map (fun x => (x.1, x.2, r + dcg (prev :: rest.map Prod.snd) x.2)) := by
  intro rest
  induction rest with
  | nil => intro prev r _ _; rfl
  | cons hd rest ih =>
      intro prev r hs hle
      obtain ⟨q, w⟩ := hd
      rcases List.pairwise_cons.mp hs with ⟨hw, hrest⟩
      have hwprev : w ≤ prev := hle (q, w) (List.mem_cons_self _ _)
      have hrle : ∀ u ∈ rest.map Prod.snd, u ≤ w := by
        intro u hu
        rcases List.mem_map.mp hu with ⟨x, hx, rfl⟩
        exact hw x hx
      simp only [adGo]
      split
      · rename_i heq
        have heq' : w = prev := heq
        subst heq'
        have h0 : dcg (w :: (w :: rest.map Prod.snd)) w = 0 := by
          apply dcg_cons_self_le
          intro u hu
          rcases List.mem_cons.mp hu with rfl | hu
          · exact le_refl _
          · rcases List.mem_cons.mp hu with rfl | hu
            · exact le_refl _
            · exact hrle u hu
        rw [ih w r hrest hw]
        simp only [List.map_cons, h0, Nat.add_zero]
        refine List.cons_eq_cons.mpr ⟨rfl, ?_⟩
        apply List.map_congr_left
        intro x _
        have hsame : dcg (w :: rest.map Prod.snd) x.2
            = dcg (w :: w :: rest.map Prod.snd) x.2 := by
          unfold dcg
          congr 1
          simp [List.toFinset_cons]
        rw [hsame]
      · rename_i hne
        have hne' : w ≠ prev := hne
        have hwlt : w < prev := lt_of_le_of_ne hwprev hne'
        have h1 : dcg (prev :: (w :: rest.map Prod.snd)) w = 1 := by
          apply dcg_cons_gt hwlt
          intro u hu
          rcases List.mem_cons.mp hu with rfl | hu
          · exact le_refl _
          · exact hrle u hu
        rw [ih w (r + 1) hrest hw]
        simp only [List.map_cons, h1]
        refine List.cons_eq_cons.mpr ⟨rfl, ?_⟩
        apply List.map_congr_left
        intro x hx
        have hxw : x.2 ≤ w := hw x hx
        have hstep : dcg (prev :: w :: rest.map Prod.snd) x.2
            = dcg (w :: rest.map Prod.snd) x.2 + 1 :=
          dcg_cons_of_lt hwlt hxw hrle
        rw [hstep]
        simp only [Prod.mk.injEq, true_and]
        omega

theorem assignDense_spec {l : List (String × Int)}
    (hs : l.Pairwise (fun a b => b.2 ≤ a.2)) :
    assignDense l = l.map (fun x => (x.1, x.2, 1 + dcg (l.map Prod.snd) x.2)) := by
  cases l with
  | nil => rfl
  | cons x xs =>
      rcases List.pairwise_cons.mp hs with ⟨hx, hxs⟩
      have hxle : ∀ u ∈ xs.map Prod.snd, u ≤ x.2 := by
        intro u hu
        rcases List.mem_map.mp hu with ⟨y, hy, rfl⟩
        exact hx y hy
      have h0 : dcg (x.2 :: xs.map Prod.snd) x.2 = 0 := by
        apply dcg_cons_self_le
        intro u hu
        rcases List.mem_cons.mp hu with rfl | hu
        · exact le_refl _
        · exact hxle u hu
      simp only [assignDense]
      rw [adGo_spec xs x.2 1 hxs hx]
      simp only [List.map_cons, h0, Nat.add_zero]

/-- Successive rows of a dense ranking: the rank repeats on an equal
metric and increments by exactly one on a different metric. -/
def denseStep (a b : String × Int × Nat) : Prop :=
  b.2.2 = if b.2.1 = a.2.1 then a.2.2 else a.2.2 + 1

theorem adGo_chain :
    ∀ (rest : List (String × Int)) (prev : Int) (r : Nat) (q₀ : String),
      List.Chain denseStep (q₀, prev, r) (adGo prev r rest) := by
  intro rest
  induction rest with
  | nil => intro prev r q₀; exact List.Chain.nil
  | cons hd rest ih =>
      intro prev r q₀
      obtain ⟨q, w⟩ := hd
      simp only [adGo]
      split
      · rename_i heq
        have heq' : w = prev := heq
        subst heq'
        exact List.Chain.cons (by simp [denseStep]) (ih w r q)
      · rename_i hne
        have hne' : w ≠ prev := hne
        exact List.Chain.cons (by simp [denseStep, hne']) (ih w (r + 1) q)

theorem assignDense_chain' :
    ∀ (l : List (String × Int)), List.Chain' denseStep (assignDense l)
  | [] => List.chain'_nil
  | x :: xs => adGo_chain xs x.2 1 x.1

theorem chain'_take {α : Type} {R : α → α → Prop} :
    ∀ {l : List α} (n : Nat), List.Chain' R l → List.Chain' R (l.take n)
  | [], _, _ => by simp
  | _ :: _, 0, _ => by simp
  | a :: l, n + 1, h => by
      rw [List.take_succ_cons]
      rcases l with _ | ⟨b, l⟩
      · simp
      · rcases List.chain'_cons.mp h with ⟨hab, hl⟩
        cases n with
        | zero => simp
        | succ m =>
            rw [List.take_succ_cons]
            exact List.chain'_cons.mpr ⟨hab, by
              have := chain'_take (m + 1) hl
              rwa [List.take_succ_cons] at this⟩

/-! ## Positional-cutoff lemmas -/

theorem enumFrom_filter_map_snd {α : Type} :
    ∀ (l : List α) (k n : Nat),
      ((List.enumFrom k l).filter (fun q => decide (q.1 + 1 ≤ n))).map Prod.snd
        = l.take (n - k)
  | [], _, _ => by simp
  | a :: l, k, n => by
      rw [List.enumFrom_cons]
      by_cases h : k + 1 ≤ n
      · rw [List.filter_cons_of_pos (by simpa using h)]
        rw [List.map_cons, enumFrom_filter_map_snd l (k + 1) n]
        have : n - k = (n - (k + 1)) + 1 := by omega
        rw [this, List.take_succ_cons]
      · rw [List.filter_cons_of_neg (by simpa using h)]
        have hn : n - k = 0 := by omega
        rw [hn, List.take_zero, List.map_eq_nil_iff, List.filter_eq_nil_iff]
        rintro ⟨i, x⟩ hq
        have hik := (List.mem_enumFrom hq).1
        simp only [decide_eq_true_eq]
        omega

theorem weeklySelect_eq_dailySelect (totals : List (String × Int)) (n : Nat) :
    weeklySelect totals n = dailySelect totals n := by
  have h := enumFrom_filter_map_snd (assignDense (sortDesc totals)) 0 n
  rw [Nat.sub_zero] at h
  unfold weeklySelect dailySelect List.enum
  exact h

theorem dcg_sortDesc (l : List (String × Int)) (v : Int) :
    dcg ((sortDesc l).map Prod.snd) v = dcg (l.map Prod.snd) v := by
  unfold dcg
  rw [List.toFinset_eq_of_perm _ _ ((sortDesc_perm l).map Prod.snd)]

/-! ## Code-point string order lemmas -/

theorem strLtB_irrefl : ∀ (a : List Char), strLtB a a = false
  | [] => rfl
  | c :: cs => by simp [strLtB, strLtB_irrefl cs]

theorem strLtB_trans :
    ∀ {a b c : List Char}, strLtB a b = true → strLtB b c = true → strLtB a c = true
  | [], _ :: _, _ :: _, _, _ => rfl
  | [], _ :: _, [], _, hbc => absurd hbc (by simp [strLtB])
  | x :: xs, y :: ys, z :: zs, hab, hbc => by
      simp only [strLtB] at hab hbc ⊢
      by_cases h1 : x.toNat < y.toNat
      · by_cases h2 : y.toNat < z.toNat
        · rw [if_pos (by omega)]
        · rw [if_neg h2] at hbc
          by_cases h3 : z.toNat < y.toNat
          · rw [if_pos h3] at hbc
            exact absurd hbc (by simp)
          · rw [if_pos (by omega)]
      · rw [if_neg h1] at hab
        by_cases h4 : y.toNat < x.toNat
        · rw [if_pos h4] at hab
          exact absurd hab (by simp)
        · rw [if_neg h4] at hab
          by_cases h2 : y.toNat < z.toNat
          · rw [if_pos (by omega)]
          · rw [if_neg h2] at hbc
            by_cases h3 : z.toNat < y.toNat
            · rw [if_pos h3] at hbc
              exact absurd hbc (by simp)
            · rw [if_neg h3] at hbc
              rw [if_neg (by omega), if_neg (by omega)]
              exact strLtB_trans hab hbc

theorem strLtB_eq_of_not :
    ∀ {a b : List Char}, strLtB a b = false → strLtB b a = false → a = b
  | [], [], _, _ => rfl
  | [], _ :: _, hab, _ => absurd hab (by simp [strLtB])
  | _ :: _, [], _, hba => absurd hba (by simp [strLtB])
  | x :: xs, y :: ys, hab, hba => by
      simp only [strLtB] at hab hba
      by_cases hxy : x.toNat < y.toNat
      · exact absurd hab (by simp [hxy])
      · by_cases hyx : y.toNat < x.toNat
        · exact absurd hba (by simp [hyx])
        · rw [if_neg hxy, if_neg hyx] at hab
          rw [if_neg hyx, if_neg hxy] at hba
          have hxyeq : x = y := by
            apply Char.ext
            apply UInt32.ext
            have : x.toNat = y.toNat := by omega
            simpa [Char.toNat, UInt32.toNat] using this
          rw [hxyeq, strLtB_eq_of_not hab hba]

theorem strLtB_asymm {a b : List Char} (h : strLtB a b = true) :
    strLtB b a = false := by
  by_contra hba
  have hba' : strLtB b a = true := by
    cases hx : strLtB b a
    · exact absurd hx hba
    · rfl
  have := strLtB_trans h hba'
  rw [strLtB_irrefl a] at this
  exact absurd this (by simp)

/-- The filename order `sorted()` uses, as a (non-strict) relation. -/
def nameLe (f g : PFile) : Prop :=
  strLtB g.name.toList f.name.toList = false

theorem nameLe_total (f g : PFile) : nameLe f g ∨ nameLe g f := by
  unfold nameLe
  by_cases h : strLtB g.name.toList f.name.toList = true
  · exact Or.inr (strLtB_asymm h)
  · left
    cases hx : strLtB g.name.toList f.name.toList
    · rfl
    · exact absurd hx h

theorem nameLe_trans {f g h : PFile} (hfg : nameLe f g) (hgh : nameLe g h) :
    nameLe f h := by
  unfold nameLe at *
  by_contra hc
  have hhf : strLtB h.name.toList f.name.toList = true := by
    cases hx : strLtB h.name.toList f.name.toList
    · exact absurd hx hc
    · rfl
  by_cases hfg2 : strLtB f.name.toList g.name.toList = true
  · have := strLtB_trans hhf hfg2
    rw [hgh] at this
    exact absurd this (by simp)
  · have hfgf : strLtB f.name.toList g.name.toList = false := by
      cases hx : strLtB f.name.toList g.name.toList
      · rfl
      · exact absurd hx hfg2
    have heq := strLtB_eq_of_not hfgf hfg
    rw [heq] at hhf
    rw [hhf] at hgh
    exact absurd hgh (by simp)

/-! ## Filename-sort lemmas -/

theorem insertByName_perm (f : PFile) :
    ∀ (l : List PFile), (insertByName f l).Perm (f :: l)
  | [] => List.Perm.refl _
  | g :: gs => by
      unfold insertByName
      split
      · exact ((insertByName_perm f gs).cons g).trans (List.Perm.swap f g gs)
      · exact List.Perm.refl _

theorem sortByName_perm : ∀ (l : List PFile), (sortByName l).Perm l
  | [] => List.Perm.refl _
  | f :: fs => (insertByName_perm f (sortByName fs)).trans ((sortByName_perm fs).cons f)

theorem insertByName_pairwise {f : PFile} {l : List PFile}
    (h : l.Pairwise nameLe) : (insertByName f l).Pairwise nameLe := by
  induction l with
  | nil => simp [insertByName]
  | cons g gs ih =>
      rcases List.pairwise_cons.mp h with ⟨hg, hgs⟩
      unfold insertByName
      split
      · rename_i hlt
        refine List.pairwise_cons.mpr ⟨?_, ih hgs⟩
        intro z hz
        rcases List.mem_cons.mp ((insertByName_perm f gs).mem_iff.mp hz) with rfl | hz
        · exact strLtB_asymm hlt
        · exact hg z hz
      · rename_i hnlt
        have hfg : nameLe f g := by
          unfold nameLe
          cases hx : strLtB g.name.toList f.name.toList
          · rfl
          · exact absurd hx hnlt
        refine List.pairwise_cons.mpr ⟨?_, h⟩
        intro z hz
        rcases List.mem_cons.mp hz with rfl | hz
        · exact hfg
        · exact nameLe_trans hfg (hg z hz)

theorem sortByName_pairwise : ∀ (l : List PFile), (sortByName l).Pairwise nameLe
  | [] => List.Pairwise.nil
  | f :: fs => insertByName_pairwise (sortByName_pairwise fs)

theorem sorted_perm_names_eq :
    ∀ (l₁ l₂ : List PFile), l₁.Perm l₂ → l₁.Pairwise nameLe → l₂.Pairwise nameLe →
      (l₁.map PFile.name).Nodup → l₁ = l₂
  | [], l₂, hp, _, _, _ => (hp.symm.eq_nil).symm ▸ rfl
  | f :: t₁, [], hp, _, _, _ => absurd hp.eq_nil (by simp)
  | f :: t₁, g :: t₂, hp, h₁, h₂, hn => by
      rcases List.pairwise_cons.mp h₁ with ⟨hf1, ht₁⟩
      rcases List.pairwise_cons.mp h₂ with ⟨hg2, ht₂⟩
      by_cases hfg : f = g
      · subst hfg
        have hteq := sorted_perm_names_eq t₁ t₂ (hp.cons_inv) ht₁ ht₂
          (by simpa using (List.nodup_cons.mp (by simpa using hn)).2)
        rw [hteq]
      · exfalso
        have hf2 : f ∈ t₂ := by
          rcases List.mem_cons.mp (hp.mem_iff.mp (List.mem_cons_self f t₁)) with h | h
          · exact absurd h hfg
          · exact h
        have hg1 : g ∈ t₁ := by
          rcases List.mem_cons.mp (hp.symm.mem_iff.mp (List.mem_cons_self g t₂)) with h | h
          · exact absurd h.symm hfg
          · exact h
        have hle1 : nameLe f g := hf1 g hg1
        have hle2 : nameLe g f := hg2 f hf2
        have hname : g.name = f.name := by
          have := strLtB_eq_of_not hle1 hle2
          exact String.toList_inj.mp this
        have : f.name ∈ t₁.map PFile.name := by
          rw [← hname]
          exact List.mem_map.mpr ⟨g, hg1, rfl⟩
        exact (List.nodup_cons.mp (by simpa using hn)).1 this

theorem sortByName_eq_of_perm {l₁ l₂ : List PFile} (hp : l₁.Perm l₂)
    (hn : (l₁.map PFile.name).Nodup) : sortByName l₁ = sortByName l₂ := by
  apply sorted_perm_names_eq
  · exact (sortByName_perm l₁).trans (hp.trans (sortByName_perm l₂).symm)
  · exact sortByName_pairwise l₁
  · exact sortByName_pairwise l₂
  · exact ((sortByName_perm l₁).map PFile.name).nodup_iff.mpr hn

/-! ## Calendar lemmas -/

theorem weekday_weekStart {d : Nat} (h : 1 ≤ d) : weekday (weekStart d) = 0 := by
  simp only [weekStart, weekday]
  omega

theorem weekStart_le {d : Nat} : weekStart d ≤ d := by
  simp only [weekStart, weekday]
  omega

theorem lt_weekStart_add {d : Nat} : d < weekStart d + 7 := by
  simp only [weekStart, weekday]
  omega

theorem weekStart_eq_sub_weekday (d : Nat) : weekStart d = d - weekday d := rfl

theorem weekStart_unique {d m : Nat} (h1 : 1 ≤ m) (hm : weekday m = 0)
    (hle : m ≤ d) (hlt : d < m + 7) : m = weekStart d := by
  simp only [weekday] at hm
  simp only [weekStart, weekday]
  omega

/-! ## Week-key sort lemmas -/

theorem insertAsc_perm (x : Nat) :
    ∀ (l : List Nat), (insertAsc x l).Perm (x :: l)
  | [] => List.Perm.refl _
  | y :: ys => by
      unfold insertAsc
      split
      · exact List.Perm.refl _
      · exact ((insertAsc_perm x ys).cons y).trans (List.Perm.swap x y ys)

theorem sortAsc_perm : ∀ (l : List Nat), (sortAsc l).Perm l
  | [] => List.Perm.refl _
  | x :: xs => (insertAsc_perm x (sortAsc xs)).trans ((sortAsc_perm xs).cons x)

theorem insertAsc_pairwise {x : Nat} {l : List Nat}
    (h : l.Pairwise (· ≤ ·)) : (insertAsc x l).Pairwise (· ≤ ·) := by
  induction l with
  | nil => simp [insertAsc]
  | cons y ys ih =>
      rcases List.pairwise_cons.mp h with ⟨hy, hys⟩
      unfold insertAsc
      split
      · rename_i hle
        refine List.pairwise_cons.mpr ⟨?_, h⟩
        intro z hz
        rcases List.mem_cons.mp hz with rfl | hz
        · exact hle
        · exact le_trans hle (hy z hz)
      · rename_i hlt
        refine List.pairwise_cons.mpr ⟨?_, ih hys⟩
        intro z hz
        rcases List.mem_cons.mp ((insertAsc_perm x ys).mem_iff.mp hz) with rfl | hz
        · exact le_of_not_le hlt
        · exact hy z hz

theorem sortAsc_pairwise : ∀ (l : List Nat), (sortAsc l).Pairwise (· ≤ ·)
  | [] => List.Pairwise.nil
  | x :: xs => insertAsc_pairwise (sortAsc_pairwise xs)

theorem weeksOf_nodup (rs : List (PFile × Nat)) : (weeksOf rs).Nodup :=
  (sortAsc_perm _).nodup_iff.mpr (firstKeys_nodup _)

theorem weeksOf_sorted (rs : List (PFile × Nat)) :
    (weeksOf rs).Pairwise (· ≤ ·) := sortAsc_pairwise _

theorem mem_weeksOf {rs : List (PFile × Nat)} {w : Nat} :
    w ∈ weeksOf rs ↔ ∃ fd ∈ rs, weekStart fd.2 = w := by
  unfold weeksOf
  rw [(sortAsc_perm _).mem_iff, mem_firstKeys]
  constructor
  · intro h
    rcases List.mem_map.mp h with ⟨fd, hfd, rfl⟩
    exact ⟨fd, hfd, rfl⟩
  · rintro ⟨fd, hfd, rfl⟩
    exact List.mem_map.mpr ⟨fd, hfd, rfl⟩

/-! ## Error-propagation lemmas -/

theorem processDaily_not_ok {f : PFile}
    (he : (resolveDateDaily f).isOk = false) :
    ∀ {l : List PFile}, f ∈ l → (processDaily l).isOk = false := by
  intro l
  induction l with
  | nil => intro h; exact absurd h (List.not_mem_nil f)
  | cons g gs ih =>
      intro hmem
      simp only [processDaily]
      rcases List.mem_cons.mp hmem with rfl | hmem
      · cases hr : resolveDateDaily f
        · rfl
        · rw [hr] at he
          exact absurd he (by simp [Except.isOk, Except.toBool])
      · cases hr : resolveDateDaily g with
        | error e => rfl
        | ok d =>
            cases hw : dailyWindow d g with
            | error e => simp [hw, Except.isOk, Except.toBool]
            | ok rows1 =>
                have hpo := ih hmem
                cases hp : processDaily gs with
                | error e => simp [hw, hp, Except.isOk, Except.toBool]
                | ok rest =>
                    rw [hp] at hpo
                    exact absurd hpo (by simp [Except.isOk, Except.toBool])

theorem resolveAll_not_ok {f : PFile}
    (he : (resolveDateWeekly f).isOk = false) :
    ∀ {l : List PFile}, f ∈ l → (resolveAll l).isOk = false := by
  intro l
  induction l with
  | nil => intro h; exact absurd h (List.not_mem_nil f)
  | cons g gs ih =>
      intro hmem
      simp only [resolveAll]
      rcases List.mem_cons.mp hmem with rfl | hmem
      · cases hr : resolveDateWeekly f
        · rfl
        · rw [hr] at he
          exact absurd he (by simp [Except.isOk, Except.toBool])
      · cases hr : resolveDateWeekly g
        · rfl
        · have := ih hmem
          cases hp : resolveAll gs
          · rfl
          · rw [hp] at this
            exact absurd this (by simp [Except.isOk, Except.toBool])

theorem dailyJob_not_ok {files : List PFile} {f : PFile} (hmem : f ∈ files)
    (he : (resolveDateDaily f).isOk = false) :
    (dailyJob files).isOk = false := by
  unfold dailyJob
  have hne : files.isEmpty = false := by
    cases files
    · exact absurd hmem (List.not_mem_nil f)
    · rfl
  rw [hne]
  simp only [Bool.false_eq_true, if_false]
  exact processDaily_not_ok he ((sortByName_perm files).mem_iff.mpr hmem)

theorem weeklyJob_not_ok {files : List PFile} {f : PFile} (hmem : f ∈ files)
    (he : (resolveDateWeekly f).isOk = false) :
    (weeklyJob files).isOk = false := by
  unfold weeklyJob
  have hne : files.isEmpty = false := by
    cases files
    · exact absurd hmem (List.not_mem_nil f)
    · rfl
  rw [hne]
  simp only [Bool.false_eq_true, if_false]
  have hra := resolveAll_not_ok he ((sortByName_perm files).mem_iff.mpr hmem)
  cases hr : resolveAll (sortByName files)
  · rfl
  · rw [hr] at hra
    exact absurd hra (by simp [Except.isOk, Except.toBool])

/-! ## Window-row lemmas -/

theorem assignDense_fst (l : List (String × Int)) :
    (assignDense l).map (fun t => t.1) = l.map Prod.fst := by
  have h := congrArg (List.map Prod.fst) (assignDense_proj l)
  simpa [List.map_map, Function.comp_def] using h

theorem assignDense_length (l : List (String × Int)) :
    (assignDense l).length = l.length := by
  have h := congrArg List.length (assignDense_proj l)
  simpa using h

theorem dailySelect_length (totals : List (String × Int)) (n : Nat) :
    (dailySelect totals n).length = min n totals.length := by
  unfold dailySelect
  rw [List.length_take, assignDense_length, (sortDesc_perm totals).length_eq]

theorem dailySelect_proj (totals : List (String × Int)) (n : Nat) :
    (dailySelect totals n).map (fun t => (t.1, t.2.1)) = (sortDesc totals).take n := by
  unfold dailySelect
  rw [List.map_take, assignDense_proj]

theorem dailySelect_fst_nodup (l : List (String × Int)) (n : Nat) :
    ((dailySelect (groupSums l) n).map (fun t => t.1)).Nodup := by
  unfold dailySelect
  rw [List.map_take, assignDense_fst]
  apply List.Sublist.nodup (List.take_sublist _ _)
  apply ((sortDesc_perm (groupSums l)).map Prod.fst).nodup_iff.mpr
  rw [groupSums_map_fst]
  exact firstKeys_nodup _

theorem mkRows_endpoint (d : Option Nat) (sel : List (String × Int × Nat)) :
    (mkRows d sel).map (fun r => r.endpoint_id) = sel.map (fun t => t.1) := by
  simp [mkRows, List.map_map, Function.comp_def]

theorem mkRows_date {d : Option Nat} {sel : List (String × Int × Nat)} :
    ∀ r ∈ mkRows d sel, r.date = d := by
  intro r hr
  rcases List.mem_map.mp hr with ⟨t, _, rfl⟩
  rfl

theorem mkRows_pair (d : Option Nat) (sel : List (String × Int × Nat)) :
    (mkRows d sel).map (fun r => (r.date, r.endpoint_id))
      = (sel.map (fun t => t.1)).map (fun e => (d, e)) := by
  simp [mkRows, List.map_map, Function.comp_def]

theorem weeklyWindow_ok {w : Nat} {fs : List PFile} {rows : List RankedRow}
    (h : weeklyWindow w fs = .ok rows) :
    aggregate fs = .ok (groupSums (pairs fs)) ∧
      rows = mkRows (some w) (weeklySelect (groupSums (pairs fs)) 100000) := by
  unfold weeklyWindow at h
  cases ha : aggregate fs with
  | error e => rw [ha] at h; exact absurd h (by simp)
  | ok t =>
      have ht : t = groupSums (pairs fs) := aggregate_eq_ok ha
      rw [ha] at h
      subst ht
      simp only [Except.ok.injEq] at h
      exact ⟨rfl, h.symm⟩

theorem dailyWindow_ok {d : Option Nat} {f : PFile} {rows : List RankedRow}
    (h : dailyWindow d f = .ok rows) :
    aggregate [f] = .ok (groupSums (pairs [f])) ∧
      rows = mkRows d (dailySelect (groupSums (pairs [f])) 2000) := by
  unfold dailyWindow at h
  cases ha : aggregate [f] with
  | error e => rw [ha] at h; exact absurd h (by simp)
  | ok t =>
      have ht : t = groupSums (pairs [f]) := aggregate_eq_ok ha
      rw [ha] at h
      subst ht
      simp only [Except.ok.injEq] at h
      exact ⟨rfl, h.symm⟩

theorem weeklyWindow_pair_nodup {w : Nat} {fs : List PFile} {rows : List RankedRow}
    (h : weeklyWindow w fs = .ok rows) :
    (rows.map (fun r => (r.date, r.endpoint_id))).Nodup := by
  rcases weeklyWindow_ok h with ⟨_, rfl⟩
  rw [mkRows_pair]
  apply List.Nodup.map
  · intro a b hab
    simpa using hab
  · rw [weeklySelect_eq_dailySelect]
    exact dailySelect_fst_nodup _ _

theorem processWeeks_ok_dates {rs : List (PFile × Nat)} :
    ∀ {ws : List Nat} {rows : List RankedRow},
      processWeeks rs ws = .ok rows → ∀ r ∈ rows, ∃ w ∈ ws, r.date = some w := by
  intro ws
  induction ws with
  | nil =>
      intro rows h r hr
      simp only [processWeeks, Except.ok.injEq] at h
      subst h
      exact absurd hr (List.not_mem_nil r)
  | cons w ws ih =>
      intro rows h r hr
      simp only [processWeeks] at h
      cases hw : weeklyWindow w (filesForWeek rs w) with
      | error e => rw [hw] at h; exact absurd h (by simp)
      | ok rows1 =>
          rw [hw] at h
          cases hp : processWeeks rs ws with
          | error e => rw [hp] at h; exact absurd h (by simp)
          | ok rest =>
              rw [hp] at h
              simp only [Except.ok.injEq] at h
              subst h
              rcases List.mem_append.mp hr with hr | hr
              · rcases weeklyWindow_ok hw with ⟨_, rfl⟩
                exact ⟨w, List.mem_cons_self _ _, mkRows_date r hr⟩
              · rcases ih hp r hr with ⟨w', hw', hd⟩
                exact ⟨w', List.mem_cons_of_mem _ hw', hd⟩

theorem processWeeks_pair_nodup {rs : List (PFile × Nat)} :
    ∀ {ws : List Nat} {rows : List RankedRow}, ws.Nodup →
      processWeeks rs ws = .ok rows →
      (rows.map (fun r => (r.date, r.endpoint_id))).Nodup := by
  intro ws
  induction ws with
  | nil =>
      intro rows _ h
      simp only [processWeeks, Except.ok.injEq] at h
      subst h
      exact List.nodup_nil
  | cons w ws ih =>
      intro rows hnd h
      simp only [processWeeks] at h
      cases hw : weeklyWindow w (filesForWeek rs w) with
      | error e => rw [hw] at h; exact absurd h (by simp)
      | ok rows1 =>
          rw [hw] at h
          cases hp : processWeeks rs ws with
          | error e => rw [hp] at h; exact absurd h (by simp)
          | ok rest =>
              rw [hp] at h
              simp only [Except.ok.injEq] at h
              subst h
              rcases List.nodup_cons.mp hnd with ⟨hwn, hwsn⟩
              rw [List.map_append]
              apply List.Nodup.append (weeklyWindow_pair_nodup hw)
                ((ih hwsn hp))
              intro pr hpr1 hpr2
              rcases List.mem_map.mp hpr1 with ⟨r1, hr1, rfl⟩
              rcases List.mem_map.mp hpr2 with ⟨r2, hr2, hpr⟩
              rcases weeklyWindow_ok hw with ⟨_, heq⟩
              subst heq
              have hd1 : r1.date = some w := mkRows_date r1 hr1
              rcases processWeeks_ok_dates hp r2 hr2 with ⟨w', hw', hd2⟩
              have : r1.date = r2.date := congrArg Prod.fst hpr.symm
              rw [hd1, hd2] at this
              simp only [Option.some.injEq] at this
              exact hwn (this ▸ hw')

theorem weeklyJob_pair_nodup {files : List PFile} {rows : List RankedRow}
    (h : weeklyJob files = .ok rows) :
    (rows.map (fun r => (r.date, r.endpoint_id))).Nodup := by
  unfold weeklyJob at h
  split at h
  · exact absurd h (by simp)
  · cases hr : resolveAll (sortByName files) with
    | error e => rw [hr] at h; exact absurd h (by simp)
    | ok rs =>
        rw [hr] at h
        exact processWeeks_pair_nodup (weeksOf_nodup rs) h

/-! ## Exact-total lemmas -/

theorem aggregate_ok_facts {fs : List PFile} {totals : List (String × Int)}
    (h : aggregate fs = .ok totals) :
    (∀ p v, (p, v) ∈ totals → pageAppears p fs ∧ v = exactTotal p fs) ∧
      (∀ p, pageAppears p fs → (p, exactTotal p fs) ∈ totals) := by
  have ht : totals = groupSums (pairs fs) := aggregate_eq_ok h
  subst ht
  constructor
  · intro p v hm
    rcases mem_groupSums hm with ⟨hp, hv⟩
    refine ⟨mem_pairs_fst.mp hp, ?_⟩
    rw [hv, pairs_filter_sum]
  · intro p hp
    have := groupSums_mem_of_mem (mem_pairs_fst.mpr hp)
    rwa [pairs_filter_sum] at this

theorem mem_dailySelect_pair {totals : List (String × Int)} {n : Nat}
    {t : String × Int × Nat} (ht : t ∈ dailySelect totals n) :
    (t.1, t.2.1) ∈ totals := by
  unfold dailySelect at ht
  have h1 := (List.take_sublist _ _).subset ht
  have h2 : (t.1, t.2.1) ∈ (assignDense (sortDesc totals)).map (fun t => (t.1, t.2.1)) :=
    List.mem_map.mpr ⟨t, h1, rfl⟩
  rw [assignDense_proj] at h2
  exact (sortDesc_perm totals).mem_iff.mp h2

theorem mem_dailySelect_rank {totals : List (String × Int)} {n : Nat}
    {t : String × Int × Nat} (ht : t ∈ dailySelect totals n) :
    t.2.2 = 1 + dcg (totals.map Prod.snd) t.2.1 := by
  unfold dailySelect at ht
  have h1 := (List.take_sublist _ _).subset ht
  rw [assignDense_spec (sortDesc_pairwise totals)] at h1
  rcases List.mem_map.mp h1 with ⟨x, _, rfl⟩
  simp only
  rw [dcg_sortDesc]

theorem dailySelect_metric_pairwise (totals : List (String × Int)) (n : Nat) :
    (dailySelect totals n).Pairwise (fun a b => b.2.1 ≤ a.2.1) := by
  unfold dailySelect
  apply List.Pairwise.sublist (List.take_sublist _ _)
  rw [assignDense_spec (sortDesc_pairwise totals), List.pairwise_map]
  exact sortDesc_pairwise totals

theorem dailySelect_chain' (totals : List (String × Int)) (n : Nat) :
    List.Chain' denseStep (dailySelect totals n) :=
  chain'_take n (assignDense_chain' (sortDesc totals))

theorem dailySelect_rank_pairwise (totals : List (String × Int)) (n : Nat) :
    (dailySelect totals n).Pairwise (fun a b => a.2.2 ≤ b.2.2) := by
  have hc := dailySelect_chain' totals n
  have hc2 : List.Chain' (fun a b : String × Int × Nat => a.2.2 ≤ b.2.2)
      (dailySelect totals n) := by
    apply List.Chain'.imp _ hc
    intro a b hab
    unfold denseStep at hab
    split at hab <;> omega
  haveI : IsTrans (String × Int × Nat) (fun a b => a.2.2 ≤ b.2.2) :=
    ⟨fun _ _ _ h1 h2 => le_trans h1 h2⟩
  exact List.chain'_iff_pairwise.mp hc2

theorem select_cutoff (totals : List (String × Int)) (n : Nat) (d : Option Nat) :
    (mkRows d (dailySelect totals n)).length = min n totals.length ∧
      (mkRows d (dailySelect totals n)).map (fun r => (r.endpoint_id, r.metric_value))
        = (sortDesc totals).take n := by
  constructor
  · rw [mkRows, List.length_map, dailySelect_length]
  · rw [mkRows, List.map_map]
    exact dailySelect_proj totals n

theorem mkRows_rank_formula (totals : List (String × Int)) (n : Nat) (d : Option Nat) :
    ∀ r ∈ mkRows d (dailySelect totals n),
      r.rank = 1 + dcg (totals.map Prod.snd) r.metric_value := by
  intro r hr
  rcases List.mem_map.mp hr with ⟨t, ht, rfl⟩
  exact mem_dailySelect_rank ht

theorem mkRows_rank_pairwise (totals : List (String × Int)) (n : Nat) (d : Option Nat) :
    (mkRows d (dailySelect totals n)).Pairwise (fun a b => a.rank ≤ b.rank) := by
  rw [mkRows, List.pairwise_map]
  exact dailySelect_rank_pairwise totals n

theorem mkRows_rank_chain (totals : List (String × Int)) (n : Nat) (d : Option Nat) :
    List.Chain'
      (fun a b => b.rank = if b.metric_value = a.metric_value then a.rank else a.rank + 1)
      (mkRows d (dailySelect totals n)) := by
  rw [mkRows, List.chain'_map]
  exact dailySelect_chain' totals n

/-! ## Claim theorems -/

/-- C1: whenever the per-window aggregation succeeds, its totals list
contains exactly the page identifiers that appear in the window's input
files, each with metric value equal to the exact sum, over every record
with that identifier, of the ten interaction fields (null or absent =
0); consequently every emitted row of either window carries that exact
sum and belongs to an appearing page, and never-appearing pages get no
row. -/
theorem aggregate_totals_exact :
    ∀ (fs : List PFile),
      (∀ totals, aggregate fs = .ok totals →
        (∀ p v, (p, v) ∈ totals → pageAppears p fs ∧ v = exactTotal p fs) ∧
        (∀ p, pageAppears p fs → (p, exactTotal p fs) ∈ totals)) ∧
      (∀ (w : Nat) (rows : List RankedRow), weeklyWindow w fs = .ok rows →
        ∀ r ∈ rows,
          pageAppears r.endpoint_id fs ∧ r.metric_value = exactTotal r.endpoint_id fs) ∧
      (∀ (d : Option Nat) (f : PFile) (rows : List RankedRow), dailyWindow d f = .ok rows →
        ∀ r ∈ rows,
          pageAppears r.endpoint_id [f] ∧ r.metric_value = exactTotal r.endpoint_id [f]) := by
  intro fs
  refine ⟨fun totals h => aggregate_ok_facts h, ?_, ?_⟩
  · intro w rows hw r hr
    rcases weeklyWindow_ok hw with ⟨ha, rfl⟩
    rw [weeklySelect_eq_dailySelect] at hr
    rcases List.mem_map.mp hr with ⟨t, ht, rfl⟩
    exact (aggregate_ok_facts ha).1 t.1 t.2.1 (mem_dailySelect_pair ht)
  · intro d f rows hw r hr
    rcases dailyWindow_ok hw with ⟨ha, rfl⟩
    rcases List.mem_map.mp hr with ⟨t, ht, rfl⟩
    exact (aggregate_ok_facts ha).1 t.1 t.2.1 (mem_dailySelect_pair ht)

/-- C1 witness: on the concrete two-file week, page A's emitted total
13 is the exact ten-field sum of its records. -/
theorem aggregate_totals_exact_witness :
    pageAppears "A" [F1, F2] ∧ (13 : Int) = exactTotal "A" [F1, F2] := by
  have h := (aggregate_totals_exact [F1, F2]).1 totalsW (by rfl)
  exact h.1 "A" 13 (by simp [totalsW])

/-- C2 counterexample: a single input file whose schema lacks the
plainly referenced `likeCount` column aborts both jobs with a binder
error, contradicting the claim that the absence of any of the ten
fields is always recovered locally. -/
theorem missing_column_aborts_cex :
    FnoLike.schema Field.likeCount = false ∧
      dailyJob [FnoLike] = .error Err.binderError ∧
      weeklyJob [FnoLike] = .error Err.binderError :=
  ⟨rfl, rfl, rfl⟩

/-- C2 amended: only `thankfulCount`, the one field wrapped in `try()`,
may be absent from every file of a scan without aborting: when the nine
plainly referenced fields each occur in the unioned schema the
aggregation succeeds, a missing `thankfulCount` contributing zero to
every record of a file lacking it; if any of the nine is absent from
every file of the scan, the aggregation is a binder error. -/
theorem missing_column_policy_amended :
    (∀ fs : List PFile, (∀ c ∈ plainFields, unionHas fs c = true) →
        (aggregate fs).isOk = true) ∧
    (∀ fs : List PFile, ∀ c ∈ plainFields, unionHas fs c = false →
        aggregate fs = .error Err.binderError) ∧
    (∀ f : PFile, f.schema Field.thankfulCount = false → ∀ r ∈ f.rows,
        rowScore f r = (plainFields.map (fun c => (colVal f r c).getD 0)).sum) := by
  refine ⟨?_, ?_, ?_⟩
  · intro fs h
    unfold aggregate
    rw [if_pos (List.all_eq_true.mpr h)]
    rfl
  · intro fs c hc h
    unfold aggregate
    rw [if_neg]
    intro hall
    have := List.all_eq_true.mp hall c hc
    rw [h] at this
    exact absurd this (by simp)
  · intro f h r _
    simp [rowScore, tenFields, plainFields, colVal, h]

/-- C2 amended witness: the two-file week whose second file lacks
`thankfulCount` aggregates successfully, and that file's page-A record
scores the same with or without the tenth field. -/
theorem missing_column_policy_amended_witness :
    (aggregate [F1, F2]).isOk = true ∧
      rowScore F2 rowA2 = (plainFields.map (fun c => (colVal F2 rowA2 c).getD 0)).sum := by
  constructor
  · exact missing_column_policy_amended.1 [F1, F2] (by decide)
  · exact missing_column_policy_amended.2.2 F2 rfl rowA2 (List.Mem.head _)

/-- C3: each window's emitted rows are exactly the first N positions
(N = 2000 daily, 100000 weekly) of a metric-descending ordering of the
per-page totals, so the count is min(N, number of distinct pages): at
most N, and short of N only when fewer than N distinct pages — in
particular fewer than N with nonzero totals — exist in the window. -/
theorem topN_positional_cutoff :
    (∀ (d : Option Nat) (f : PFile) (totals : List (String × Int)) (rows : List RankedRow),
        aggregate [f] = .ok totals → dailyWindow d f = .ok rows →
        rows.length ≤ 2000 ∧
        rows.length = min 2000 totals.length ∧
        rows.map (fun r => (r.endpoint_id, r.metric_value)) = (sortDesc totals).take 2000 ∧
        (sortDesc totals).Perm totals ∧
        (sortDesc totals).Pairwise (fun a b => b.2 ≤ a.2) ∧
        (rows.length = 2000 ∨
          (totals.filter (fun x => decide (x.2 ≠ 0))).length < 2000)) ∧
    (∀ (w : Nat) (fs : List PFile) (totals : List (String × Int)) (rows : List RankedRow),
        aggregate fs = .ok totals → weeklyWindow w fs = .ok rows →
        rows.length ≤ 100000 ∧
        rows.length = min 100000 totals.length ∧
        rows.map (fun r => (r.endpoint_id, r.metric_value)) = (sortDesc totals).take 100000 ∧
        (sortDesc totals).Perm totals ∧
        (sortDesc totals).Pairwise (fun a b => b.2 ≤ a.2) ∧
        (rows.length = 100000 ∨
          (totals.filter (fun x => decide (x.2 ≠ 0))).length < 100000)) := by
  constructor
  · intro d f totals rows ha hw
    rcases dailyWindow_ok hw with ⟨ha2, rfl⟩
    have ht : totals = groupSums (pairs [f]) := aggregate_eq_ok ha
    subst ht
    rcases select_cutoff (groupSums (pairs [f])) 2000 d with ⟨hlen, hmap⟩
    refine ⟨?_, hlen, hmap, sortDesc_perm _, sortDesc_pairwise _, ?_⟩
    · rw [hlen]; exact Nat.min_le_left _ _
    · rcases le_or_lt 2000 (groupSums (pairs [f])).length with h | h
      · left; rw [hlen]; exact Nat.min_eq_left h
      · right; exact Nat.lt_of_le_of_lt (List.length_filter_le _ _) h
  · intro w fs totals rows ha hw
    rcases weeklyWindow_ok hw with ⟨ha2, rfl⟩
    have ht : totals = groupSums (pairs fs) := aggregate_eq_ok ha
    subst ht
    rw [weeklySelect_eq_dailySelect]
    rcases select_cutoff (groupSums (pairs fs)) 100000 (some w) with ⟨hlen, hmap⟩
    refine ⟨?_, hlen, hmap, sortDesc_perm _, sortDesc_pairwise _, ?_⟩
    · rw [hlen]; exact Nat.min_le_left _ _
    · rcases le_or_lt 100000 (groupSums (pairs fs)).length with h | h
      · left; rw [hlen]; exact Nat.min_eq_left h
      · right; exact Nat.lt_of_le_of_lt (List.length_filter_le _ _) h

/-- C3 witness: the concrete week emits three rows, min(100000, 3). -/
theorem topN_positional_cutoff_witness :
    panelW.length ≤ 100000 ∧ panelW.length = min 100000 totalsW.length := by
  have h := topN_positional_cutoff.2 (toordinal 2024 3 4) [F1, F2] totalsW panelW
    (by rfl) (by rfl)
  exact ⟨h.1, h.2.1⟩

/-- C4: in each window of either panel, every emitted row's rank is
1 plus the number of distinct metric values in the window strictly
greater than its own; tied totals share a rank; rank is non-decreasing
in emission (metric-descending) order; and each successive row's rank
either repeats (equal metric) or increments by exactly one (lower
metric) — the dense-rank property, with no gaps. -/
theorem dense_rank_semantics :
    (∀ (d : Option Nat) (f : PFile) (totals : List (String × Int)) (rows : List RankedRow),
        aggregate [f] = .ok totals → dailyWindow d f = .ok rows →
        (∀ r ∈ rows, r.rank = 1 + dcg (totals.map Prod.snd) r.metric_value) ∧
        (∀ r₁ ∈ rows, ∀ r₂ ∈ rows, r₁.metric_value = r₂.metric_value → r₁.rank = r₂.rank) ∧
        rows.Pairwise (fun a b => a.rank ≤ b.rank) ∧
        List.Chain'
          (fun a b => b.rank = if b.metric_value = a.metric_value then a.rank else a.rank + 1)
          rows) ∧
    (∀ (w : Nat) (fs : List PFile) (totals : List (String × Int)) (rows : List RankedRow),
        aggregate fs = .ok totals → weeklyWindow w fs = .ok rows →
        (∀ r ∈ rows, r.rank = 1 + dcg (totals.map Prod.snd) r.metric_value) ∧
        (∀ r₁ ∈ rows, ∀ r₂ ∈ rows, r₁.metric_value = r₂.metric_value → r₁.rank = r₂.rank) ∧
        rows.Pairwise (fun a b => a.rank ≤ b.rank) ∧
        List.Chain'
          (fun a b => b.rank = if b.metric_value = a.metric_value then a.rank else a.rank + 1)
          rows) := by
  constructor
  · intro d f totals rows ha hw
    rcases dailyWindow_ok hw with ⟨ha2, rfl⟩
    have ht : totals = groupSums (pairs [f]) := aggregate_eq_ok ha
    subst ht
    have hform := mkRows_rank_formula (groupSums (pairs [f])) 2000 d
    refine ⟨hform, ?_, mkRows_rank_pairwise _ _ _, mkRows_rank_chain _ _ _⟩
    intro r₁ h₁ r₂ h₂ hm
    rw [hform r₁ h₁, hform r₂ h₂, hm]
  · intro w fs totals rows ha hw
    rcases weeklyWindow_ok hw with ⟨ha2, rfl⟩
    have ht : totals = groupSums (pairs fs) := aggregate_eq_ok ha
    subst ht
    rw [weeklySelect_eq_dailySelect]
    have hform := mkRows_rank_formula (groupSums (pairs fs)) 100000 (some w)
    refine ⟨hform, ?_, mkRows_rank_pairwise _ _ _, mkRows_rank_chain _ _ _⟩
    intro r₁ h₁ r₂ h₂ hm
    rw [hform r₁ h₁, hform r₂ h₂, hm]

/-- C4 witness: in the concrete week, page B's rank 2 equals 1 plus the
single distinct greater total (13). -/
theorem dense_rank_semantics_witness :
    (2 : Nat) = 1 + dcg (totalsW.map Prod.snd) 10 := by
  have h := dense_rank_semantics.2 (toordinal 2024 3 4) [F1, F2] totalsW panelW
    (by rfl) (by rfl)
  exact h.1 ⟨some (toordinal 2024 3 4), "B", 10, 2⟩ (by simp [panelW])

/-- C5: the weekly window key of a date is the Monday of its ISO week —
the unique Monday at most 6 days before it, obtained by subtracting the
zero-based weekday — with 2024-03-04 and 2024-03-10 keyed to 2024-03-04
and 2024-03-11 keyed to itself; and the distinct window keys are
processed in ascending sorted order. -/
theorem week_start_monday_key :
    (∀ d : Nat, 1 ≤ d →
        weekday (weekStart d) = 0 ∧ weekStart d ≤ d ∧ d < weekStart d + 7 ∧
        weekStart d = d - weekday d) ∧
    (∀ d m : Nat, 1 ≤ m → weekday m = 0 → m ≤ d → d < m + 7 → m = weekStart d) ∧
    weekStart (toordinal 2024 3 4) = toordinal 2024 3 4 ∧
    weekStart (toordinal 2024 3 10) = toordinal 2024 3 4 ∧
    weekStart (toordinal 2024 3 11) = toordinal 2024 3 11 ∧
    toordinal 2024 3 11 ≠ toordinal 2024 3 4 ∧
    (∀ rs : List (PFile × Nat),
        (weeksOf rs).Pairwise (· ≤ ·) ∧ (weeksOf rs).Nodup ∧
        (∀ w, w ∈ weeksOf rs ↔ ∃ fd ∈ rs, weekStart fd.2 = w)) := by
  refine ⟨?_, ?_, by decide, by decide, by decide, by decide, ?_⟩
  · intro d hd
    exact ⟨weekday_weekStart hd, weekStart_le, lt_weekStart_add,
      weekStart_eq_sub_weekday d⟩
  · intro d m h1 hm hle hlt
    exact weekStart_unique h1 hm hle hlt
  · intro rs
    exact ⟨weeksOf_sorted rs, weeksOf_nodup rs, fun w => mem_weeksOf⟩

/-- C5 witness: the Sunday 2024-03-10 instance of the general Monday
property. -/
theorem week_start_monday_key_witness :
    weekday (weekStart (toordinal 2024 3 10)) = 0 ∧
      weekStart (toordinal 2024 3 10) ≤ toordinal 2024 3 10 := by
  have h := week_start_monday_key.1 (toordinal 2024 3 10) (by decide)
  exact ⟨h.1, h.2.1⟩

/-- C6 counterexample: `FND` has no date pattern in its name and its
content scan yields no date (SQL NULL minimum), yet the daily job does
not abort — it completes and writes its (empty) panel. -/
theorem date_resolution_daily_continues_cex :
    findDatePattern FND.name = none ∧ minDateOf FND = .ok none ∧
      dailyJob [FND] = .ok [] :=
  ⟨rfl, rfl, rfl⟩

/-- C6 amended: a file with no date pattern in its name aborts the
whole job when (daily and weekly) its content scan errors because the
`date` column is absent, and (weekly only) when the scan returns a NULL
minimum, since `week_start_for(None)` raises; the daily job instead
carries a NULL minimum forward as a NULL window date. -/
theorem date_resolution_failure_amended :
    (∀ (files : List PFile) (f : PFile), f ∈ files →
        findDatePattern f.name = none → f.hasDateCol = false →
        (dailyJob files).isOk = false ∧ (weeklyJob files).isOk = false) ∧
    (∀ (files : List PFile) (f : PFile), f ∈ files →
        findDatePattern f.name = none → f.rows.filterMap PRow.dateVal = [] →
        (weeklyJob files).isOk = false) ∧
    (∀ f : PFile, findDatePattern f.name = none → f.hasDateCol = true →
        f.rows.filterMap PRow.dateVal = [] → resolveDateDaily f = .ok none) := by
  refine ⟨?_, ?_, ?_⟩
  · intro files f hmem hpat hcol
    constructor
    · apply dailyJob_not_ok hmem
      simp [resolveDateDaily, minDateOf, hpat, hcol, Except.isOk, Except.toBool]
    · apply weeklyJob_not_ok hmem
      simp [resolveDateWeekly, minDateOf, hpat, hcol, Except.isOk, Except.toBool]
  · intro files f hmem hpat hfm
    apply weeklyJob_not_ok hmem
    cases hcol : f.hasDateCol
    · simp [resolveDateWeekly, minDateOf, hpat, hcol, Except.isOk, Except.toBool]
    · simp [resolveDateWeekly, minDateOf, hpat, hcol, hfm, listMin,
        Except.isOk, Except.toBool]
  · intro f hpat hcol hfm
    simp [resolveDateDaily, minDateOf, hpat, hcol, hfm, listMin]

/-- C6 amended witness: the dateless file without a `date` column
aborts both jobs. -/
theorem date_resolution_failure_amended_witness :
    (dailyJob [FND2]).isOk = false ∧ (weeklyJob [FND2]).isOk = false :=
  date_resolution_failure_amended.1 [FND2] FND2 (List.Mem.head _) rfl rfl

/-- C7 counterexample: two daily files both resolving to 2024-03-04 and
both containing page A produce a daily window (one calendar date) with
two rows for endpoint A, so endpoint_id is not unique within a window
under every input-file assignment. -/
theorem endpoint_unique_cex :
    dailyJob [G1, G2]
        = .ok [⟨some (toordinal 2024 3 4), "A", 10, 1⟩,
               ⟨some (toordinal 2024 3 4), "A", 10, 1⟩] ∧
      ¬ (([⟨some (toordinal 2024 3 4), "A", 10, 1⟩,
           ⟨some (toordinal 2024 3 4), "A", 10, 1⟩] : List RankedRow).map
          (fun r => (r.date, r.endpoint_id))).Nodup := by
  refine ⟨by rfl, ?_⟩
  intro h
  rcases List.nodup_cons.mp h with ⟨hni, _⟩
  exact hni (List.Mem.head _)

/-- C7 amended: endpoint_id values are pairwise distinct within each
single INSERT batch (one daily file's top-2000, one week's top-100000),
and in the weekly panel the (window date, endpoint_id) pairs are
globally distinct, so weekly windows never repeat an endpoint; daily
uniqueness per calendar date holds only when distinct files resolve to
distinct dates. -/
theorem endpoint_unique_amended :
    (∀ (d : Option Nat) (f : PFile) (rows : List RankedRow),
        dailyWindow d f = .ok rows → (rows.map (fun r => r.endpoint_id)).Nodup) ∧
    (∀ (w : Nat) (fs : List PFile) (rows : List RankedRow),
        weeklyWindow w fs = .ok rows → (rows.map (fun r => r.endpoint_id)).Nodup) ∧
    (∀ (files : List PFile) (rows : List RankedRow),
        weeklyJob files = .ok rows →
        (rows.map (fun r => (r.date, r.endpoint_id))).Nodup) := by
  refine ⟨?_, ?_, ?_⟩
  · intro d f rows hw
    rcases dailyWindow_ok hw with ⟨_, rfl⟩
    rw [mkRows_endpoint]
    exact dailySelect_fst_nodup _ _
  · intro w fs rows hw
    rcases weeklyWindow_ok hw with ⟨_, rfl⟩
    rw [mkRows_endpoint, weeklySelect_eq_dailySelect]
    exact dailySelect_fst_nodup _ _
  · intro files rows h
    exact weeklyJob_pair_nodup h

/-- C7 amended witness: the concrete weekly panel's (date, endpoint)
pairs are distinct. -/
theorem endpoint_unique_amended_witness :
    (panelW.map (fun r => (r.date, r.endpoint_id))).Nodup :=
  endpoint_unique_amended.2.2 [F1, F2] panelW (by rfl)

/-- C8: with no matching input files, both jobs fail with the
no-input-found condition; the error return means the job aborted before
producing any panel. -/
theorem empty_input_aborts :
    dailyJob [] = .error Err.noInputFound ∧ weeklyJob [] = .error Err.noInputFound :=
  ⟨rfl, rfl⟩

/-- C9: both pipelines are insensitive to the enumeration order of the
input directory: on any reordering of the same files (distinct
filenames, as in a directory) each job produces the identical panel,
because the files are sorted by name and the week keys by value before
processing. -/
theorem run_determinism :
    ∀ (l₁ l₂ : List PFile), l₁.Perm l₂ → (l₁.map PFile.name).Nodup →
      dailyJob l₁ = dailyJob l₂ ∧ weeklyJob l₁ = weeklyJob l₂ := by
  intro l₁ l₂ hp hn
  have hs := sortByName_eq_of_perm hp hn
  have hie : l₁.isEmpty = l₂.isEmpty := by
    have hl := hp.length_eq
    cases l₁ <;> cases l₂ <;> first | rfl | (exfalso; simp at hl)
  constructor
  · unfold dailyJob
    rw [hs, hie]
  · unfold weeklyJob
    rw [hs, hie]

/-- C9 witness: the two concrete same-date files in either enumeration
order yield identical panels. -/
theorem run_determinism_witness :
    dailyJob [G2, G1] = dailyJob [G1, G2] ∧
      weeklyJob [G2, G1] = weeklyJob [G1, G2] :=
  run_determinism [G2, G1] [G1, G2] (List.Perm.swap G1 G2 []) (by decide)

/-- C10: given the same per-page totals, the same engine tie order, the
same window date and the same N, the daily ranker (`ORDER BY rank LIMIT
n`) and the weekly ranker (`ROW_NUMBER ... WHERE rn <= n`, `rn`
projected away) emit identical ranked rows. -/
theorem rankers_equivalent :
    ∀ (totals : List (String × Int)) (n : Nat) (d : Nat),
      weeklySelect totals n = dailySelect totals n ∧
      mkRows (some d) (weeklySelect totals n) = mkRows (some d) (dailySelect totals n) := by
  intro totals n d
  rw [weeklySelect_eq_dailySelect]
  exact ⟨rfl, rfl⟩

end RankDiffusion
